import Mathlib

/-!
Verification of the profi in-process hierarchical scope profiler.

This file shallowly embeds the measurement-capture and aggregation engine of
the profiler (files src/measure.rs and src/process.rs, plus the public Guard
wrapper of src/zz_private.rs) and proves properties of the embedding.

Modelling conventions:
- Machine durations and instants (std::time::Duration, minstant::Instant) are
  natural numbers of nanoseconds.  Rust Duration subtraction and
  minstant::Instant::duration_since saturate at zero, matching Nat subtraction.
- Rust f64 percentage arithmetic is modelled exactly over the rationals,
  extended with explicit nan and inf values so that the IEEE behaviour of
  0.0/0.0 (nan) and x/0.0 (inf) at the division sites is preserved.
- indexmap::IndexMap is modelled as an association list in insertion order:
  get_index_of is a key search returning the position, insert of a fresh key
  appends, get_index_mut is positional access.
- Rust panics (expect / unwrap) are modelled as Except.error; in-place
  mutation through a &mut reference obtained by index path is modelled by a
  functional modify-at-path.
- Vec used as a stack (start_times) is modelled as a Lean list with push/pop
  at the head.  current_path is kept in bottom-to-top order, as the code
  iterates it from the root.
-/

abbrev Str := String

/-- Durations in nanoseconds (std::time::Duration). -/
abbrev Duration := Nat

/-- Instants in nanoseconds since an epoch (minstant::Instant). -/
abbrev Instant := Nat

/-- measure.rs MeasureType: Start carries the scope name, End closes the most
recent unmatched Start. -/
inductive MeasureType where
  | Start : Str → MeasureType
  | End : MeasureType
  deriving DecidableEq, Repr

/-- measure.rs Measure: an event type plus its timestamp. -/
structure Measure where
  ty : MeasureType
  time : Instant
  deriving DecidableEq, Repr

/-- Positional in-place update of a list element, used to model mutation
through an index obtained from an IndexMap.  Out-of-range indices leave the
list unchanged. -/
def listModify : List α → Nat → (α → α) → List α
  | [], _, _ => []
  | a :: l, 0, f => f a :: l
  | a :: l, n + 1, f => a :: listModify l n f

/-- IndexMap::get_index_of, modelled on an association list: position of the
first entry whose key equals the given name. -/
def get_index_of : List (Str × α) → Str → Option Nat
  | [], _ => none
  | (k, _) :: l, name => if k = name then some 0 else (get_index_of l name).map (· + 1)

/-- process.rs Node: recorded durations, ordered map of children, nesting
depth. -/
inductive Node where
  | mk : List Duration → List (Str × Node) → Nat → Node

def Node.measures : Node → List Duration
  | .mk m _ _ => m

def Node.children : Node → List (Str × Node)
  | .mk _ c _ => c

def Node.depth : Node → Nat
  | .mk _ _ d => d

/-- process.rs Node::new. -/
def Node.new (depth : Nat) : Node := Node.mk [] [] depth

/-- Walk a node along a path of child indices (the loop body of
get_current in into_tree). -/
def getDesc : Node → List Nat → Option Node
  | n, [] => some n
  | n, c :: rest =>
    match (Node.children n)[c]? with
    | some p => getDesc p.2 rest
    | none => none

/-- Update (in place) the node reached by a path of child indices.  If the
path does not resolve, the node is returned unchanged; the builder only
modifies through paths that get_current has resolved. -/
def modifyDesc (f : Node → Node) : Node → List Nat → Node
  | n, [] => f n
  | n, c :: rest =>
    Node.mk (Node.measures n)
      (listModify (Node.children n) c (fun p => (p.1, modifyDesc f p.2 rest)))
      (Node.depth n)

/-- process.rs into_tree::get_current: resolve the current path in the forest;
None when the path is empty or broken. -/
def get_current : List Nat → List (Str × Node) → Option Node
  | [], _ => none
  | i :: rest, tree =>
    match tree[i]? with
    | some p => getDesc p.2 rest
    | none => none

/-- Functional counterpart of mutating through the &mut Node returned by
get_current. -/
def modify_current (f : Node → Node) : List Nat → List (Str × Node) → List (Str × Node)
  | [], tree => tree
  | i :: rest, tree => listModify tree i (fun p => (p.1, modifyDesc f p.2 rest))

/-- Recursive helper applied by into_tree at an End event: append one
duration to the measures of the current node. -/
def pushMeas (d : Duration) (n : Node) : Node :=
  Node.mk (Node.measures n ++ [d]) (Node.children n) (Node.depth n)

/-- Recursive helper applied by into_tree at a Start event on a missing
name: insert a fresh node of the given depth as the last child. -/
def appendChild (name : Str) (d : Nat) (n : Node) : Node :=
  Node.mk (Node.measures n) (Node.children n ++ [(name, Node.new d)]) (Node.depth n)

/-- The local mutable state of process.rs into_tree. -/
structure BuildState where
  tree : List (Str × Node)
  current_path : List Nat
  start_times : List Instant

/-- One iteration of the event loop in process.rs into_tree.  A Start pushes
the start time and enters (creating if needed) the child named name of the
current node, or a root node when there is no current node; an End pops the
matching start time, appends the elapsed duration to the current node and pops
the path.  The two expect calls of the source are modelled as errors. -/
def into_tree_step (st : BuildState) (m : Measure) : Except String BuildState :=
  match m.ty with
  | .Start name =>
    let st : BuildState :=
      { st with start_times := m.time :: st.start_times }
    match get_current st.current_path st.tree with
    | none =>
      -- No current subtree, so insert to root
      match get_index_of st.tree name with
      | some idx => .ok { st with current_path := st.current_path ++ [idx] }
      | none => .ok { st with
          tree := st.tree ++ [(name, Node.new 0)],
          current_path := st.current_path ++ [st.tree.length] }
    | some current =>
      -- Insert node as child of current
      match get_index_of (Node.children current) name with
      | some idx => .ok { st with current_path := st.current_path ++ [idx] }
      | none => .ok { st with
          tree := modify_current (appendChild name (Node.depth current + 1))
            st.current_path st.tree,
          current_path := st.current_path ++ [(Node.children current).length] }
  | .End =>
    match get_current st.current_path st.tree with
    | none => .error "profi: pop called and current is None, this should never happen!"
    | some _ =>
      match st.start_times with
      | [] => .error "profi: pop called and start_times is empty, this should never happen!"
      | start :: rest =>
        .ok { tree := modify_current (pushMeas (m.time - start)) st.current_path st.tree,
              current_path := st.current_path.dropLast,
              start_times := rest }

/-- process.rs into_tree: fold the event list, then return the total
application time (the sum of the root nodes own durations) together with the
forest. -/
def into_tree (measures : List Measure) : Except String (Duration × List (Str × Node)) :=
  match List.foldlM into_tree_step (BuildState.mk [] [] []) measures with
  | .error e => .error e
  | .ok st => .ok ((st.tree.map (fun p => (Node.measures p.2).sum)).sum, st.tree)

/-- Value of an f64 percentage: either a real (rational) value, or the IEEE
non-finite results produced by dividing by zero. -/
inductive FVal where
  | nan : FVal
  | inf : FVal
  | val : ℚ → FVal
  deriving DecidableEq, Repr

/-- Division of two nonnegative f64 values given as nanosecond counts
(as_secs_f64 scales both by 1e-9, which cancels): 0.0/0.0 is nan,
x/0.0 for positive x is inf, otherwise the exact quotient. -/
def fdiv (n d : Nat) : FVal :=
  if d = 0 then (if n = 0 then FVal.nan else FVal.inf) else FVal.val ((n : ℚ) / (d : ℚ))

/-- Multiplication of an f64 value by a positive rational constant. -/
def fmul (x : FVal) (c : ℚ) : FVal :=
  match x with
  | .nan => .nan
  | .inf => .inf
  | .val q => .val (q * c)

/-- process.rs Timing, with the source field order. -/
structure Timing where
  formatted_name : Str
  name : Str
  percent_app : FVal
  total_real : Duration
  percent_cpu : FVal
  total_cpu : Duration
  average : Duration
  calls : Nat
  thread : Nat
  deriving DecidableEq, Repr

/-- process.rs Timing::from_durations.  Duration division by a u32 divides
the nanosecond count, truncating. -/
def Timing.from_durations (name formatted_name : Str) (timings : List Duration)
    (total : Duration) (thread : Nat) : Timing :=
  let sum := timings.sum
  let percent : FVal :=
    if total ≠ 0 then FVal.val (((sum : ℚ) / (total : ℚ)) * 100) else FVal.val 100
  let average := sum / max timings.length 1
  { name := name
    formatted_name := formatted_name
    percent_app := percent
    total_real := sum
    percent_cpu := percent
    total_cpu := sum
    average := average
    calls := timings.length
    thread := thread }

/-- process.rs Timing::merge.  The formatted name keeps the shorter one, the
average is the mean of both averages, calls add; real and cpu totals are
combined only when the two records come from different threads. -/
def Timing.merge (self other : Timing) : Timing :=
  let s1 :=
    if self.formatted_name.length > other.formatted_name.length then
      { self with formatted_name := other.formatted_name }
    else self
  let s2 := { s1 with
    average := (s1.average + other.average) / 2,
    calls := s1.calls + other.calls }
  if s2.thread ≠ other.thread then
    { s2 with
      total_cpu := s2.total_cpu + other.total_cpu,
      total_real := max s2.total_real other.total_real }
  else s2

/-- process.rs Timing::update_percent: recompute both percentages from the
global totals with f64 division. -/
def Timing.update_percent (t : Timing) (total_app total_cpu : Duration) : Timing :=
  { t with
    percent_app := fmul (fdiv t.total_real total_app) 100,
    percent_cpu := fmul (fdiv t.total_cpu total_cpu) 100 }

/-- Indentation prepended by Node::to_timings: depth many spaces, or a
numeric indicator once the depth reaches 20. -/
def formattedName (depth : Nat) (name : Str) : Str :=
  let spaces :=
    if depth ≥ 20 then
      let new := "(+" ++ toString depth ++ ") "
      String.mk (List.replicate (20 - new.length) ' ') ++ new
    else String.mk (List.replicate depth ' ')
  spaces ++ name

mutual
/-- process.rs Node::to_timings: this node as a Timing followed by the
pre-order flattening of its children. -/
def Node.to_timings : Node → Str → Duration → Nat → List Timing
  | Node.mk ms ch d, name, total, thread =>
    Timing.from_durations name (formattedName d name) ms total thread ::
      forest_to_timings ch total thread

/-- Flat-map of Node::to_timings over an ordered forest. -/
def forest_to_timings : List (Str × Node) → Duration → Nat → List Timing
  | [], _, _ => []
  | (nm, child) :: l, total, thread =>
    Node.to_timings child nm total thread ++ forest_to_timings l total thread
end

/-- The merge-or-insert step of print_timings: records are keyed by the
unqualified scope name (the default, without the deep-hierarchy feature);
a record with a known key is merged in place, a new key is appended. -/
def insertTiming (acc : List (Str × Timing)) (t : Timing) : List (Str × Timing) :=
  match get_index_of acc t.name with
  | some i => listModify acc i (fun p => (p.1, Timing.merge p.2 t))
  | none => acc ++ [(t.name, t)]

/-- The per-thread loop of process.rs print_timings: build each thread tree,
accumulate the running maximum of the per-thread totals, flatten and merge
all records in order.  The thread index i is the enumerate counter. -/
def processThreads : List (Duration × List Measure) → Nat → Duration →
    List (Str × Timing) → Except String (Duration × List (Str × Timing))
  | [], _, total_app, acc => .ok (total_app, acc)
  | (_, measures) :: rest, i, total_app, acc =>
    match into_tree measures with
    | .error e => .error e
    | .ok (total_thread, tree) =>
      processThreads rest (i + 1) (max total_app total_thread)
        ((forest_to_timings tree total_thread i).foldl insertTiming acc)

/-- process.rs print_timings up to the table rendering: the final total
application time together with the aggregated records in insertion order,
after update_percent has run on every record. -/
def print_timings_full (threads : List (Duration × List Measure)) :
    Except String (Duration × List Timing) :=
  match processThreads threads 0 0 [] with
  | .error e => .error e
  | .ok (total_app, acc) =>
    let total_cpu := (acc.map (fun p => p.2.total_cpu)).sum
    .ok (total_app, acc.map (fun p => Timing.update_percent p.2 total_app total_cpu))

/-- The rows of the final report, in order. -/
def print_timings (threads : List (Duration × List Measure)) :
    Except String (List Timing) :=
  (print_timings_full threads).map Prod.snd

/-- The total application time as the Aggregator section of the spec defines
it: the maximum over all finalized threads of the recorded elapsed time
stored as the first component of each (elapsed, events) entry.  This
definition follows the spec words, for comparison with the code. -/
def spec_total_app_time (threads : List (Duration × List Measure)) : Duration :=
  (threads.map Prod.fst).foldl max 0

/-- measure.rs ThreadProfiler: the per-thread event log, the thread start
instant and the optionally captured stop time. -/
structure ThreadProfiler where
  measures : List Measure
  thread_start : Instant
  thread_time : Option Duration
  deriving DecidableEq, Repr

/-- measure.rs GlobalProfiler: the active-thread counter and the list of
finalized (elapsed, events) logs.  The mutex and condition variable guard
concurrent access and are not part of the sequential state. -/
structure GlobalProfiler where
  threads : Nat
  measures : List (Duration × List Measure)
  deriving DecidableEq, Repr

/-- measure.rs GlobalProfiler::new. -/
def GlobalProfiler.new : GlobalProfiler := { threads := 0, measures := [] }

/-- measure.rs ThreadProfiler::new: registers with the global profiler by
incrementing the thread counter; now is the creating thread start instant. -/
def ThreadProfiler.new (g : GlobalProfiler) (now : Instant) :
    ThreadProfiler × GlobalProfiler :=
  ({ measures := [], thread_start := now, thread_time := none },
   { g with threads := g.threads + 1 })

/-- measure.rs ThreadProfiler::push: append a Start with time
minstant::Instant::ZERO, then write the timestamp into the appended entry
(the measure is taken as late as possible). -/
def ThreadProfiler.push (tp : ThreadProfiler) (name : Str) (now : Instant) :
    ThreadProfiler :=
  let ms := tp.measures ++ [Measure.mk (MeasureType.Start name) 0]
  { tp with measures := listModify ms (ms.length - 1) (fun m => { m with time := now }) }

/-- measure.rs ThreadProfiler::pop: append an End with the given time. -/
def ThreadProfiler.pop (tp : ThreadProfiler) (time : Instant) : ThreadProfiler :=
  { tp with measures := tp.measures ++ [Measure.mk MeasureType.End time] }

/-- measure.rs ThreadProfiler::get_thread_time: the captured stop time if one
exists, otherwise the elapsed time now - thread_start. -/
def ThreadProfiler.get_thread_time (tp : ThreadProfiler) (now : Instant) : Duration :=
  let elapsed := now - tp.thread_start
  match tp.thread_time with
  | some t => t
  | none => elapsed

/-- measure.rs ThreadProfiler::set_thread_time: capture the stop time once. -/
def ThreadProfiler.set_thread_time (tp : ThreadProfiler) (now : Instant) : ThreadProfiler :=
  let elapsed := now - tp.thread_start
  if tp.thread_time.isNone then { tp with thread_time := some elapsed } else tp

/-- measure.rs ThreadProfiler::manual_drop: flush this thread log into the
global profiler.  The main thread log is inserted at position 0 with the
get_thread_time fallback; a worker log is appended with
self.thread_time.unwrap(), which is a panic (error) when no stop time was
captured.  A worker also decrements the thread counter and notifies. -/
def ThreadProfiler.manual_drop (tp : ThreadProfiler) (g : GlobalProfiler)
    (main_thread : Bool) (now : Instant) :
    Except String (ThreadProfiler × GlobalProfiler) :=
  let thread_time := tp.get_thread_time now
  let measures := tp.measures
  let tp2 := { tp with measures := [] }
  let gmRes : Except String (List (Duration × List Measure)) :=
    if measures ≠ [] then
      if main_thread then .ok ((thread_time, measures) :: g.measures)
      else
        match tp.thread_time with
        | some t => .ok (g.measures ++ [(t, measures)])
        | none => .error "called Option unwrap on a None value"
    else .ok g.measures
  match gmRes with
  | .error e => .error e
  | .ok gm =>
    let g2 := { g with measures := gm }
    let g3 := if !main_thread then { g2 with threads := g2.threads - 1 } else g2
    .ok (tp2, g3)

/-- zz_private.rs Guard: a transparent wrapper around the profiled value. -/
structure Guard (α : Type) where
  val : α

/-- zz_private.rs Guard::new: push a Start for the name onto the calling
thread log and wrap the value. -/
def Guard.new (value : α) (name : Str) (now : Instant) (tp : ThreadProfiler) :
    Guard α × ThreadProfiler :=
  (⟨value⟩, tp.push name now)

/-- zz_private.rs Guard::pop: record the End measure as early as possible. -/
def Guard.popG (_g : Guard α) (time : Instant) (tp : ThreadProfiler) : ThreadProfiler :=
  tp.pop time

/-- zz_private.rs Guard::into_inner: calls pop manually, then moves the inner
value out (mem::forget suppresses the Drop, so pop runs exactly once). -/
def Guard.into_inner (g : Guard α) (time : Instant) (tp : ThreadProfiler) :
    α × ThreadProfiler :=
  (g.val, g.popG time tp)

mutual
/-- Total number of recorded durations in a node and all its descendants. -/
def measTotal : Node → Nat
  | Node.mk ms ch _ => ms.length + measTotalF ch

/-- Total number of recorded durations in a forest. -/
def measTotalF : List (Str × Node) → Nat
  | [] => 0
  | (_, child) :: l => measTotal child + measTotalF l
end

mutual
/-- Number of nodes in a tree. -/
def nodeCount : Node → Nat
  | Node.mk _ ch _ => 1 + nodeCountF ch

/-- Number of nodes in a forest. -/
def nodeCountF : List (Str × Node) → Nat
  | [] => 0
  | (_, child) :: l => nodeCount child + nodeCountF l
end

/-- Number of Start (Enter) events. -/
def countStarts (ms : List Measure) : Nat :=
  ms.countP (fun m => match m.ty with | .Start _ => true | .End => false)

/-- Number of End (Exit) events. -/
def countEnds (ms : List Measure) : Nat :=
  ms.countP (fun m => match m.ty with | .End => true | .Start _ => false)

/-- Run the Enter/Exit counter through an event list starting from k open
scopes: none when some End underflows, otherwise the number of scopes still
open at the end. -/
def pendingAfter : List Measure → Nat → Option Nat
  | [], k => some k
  | m :: rest, k =>
    match m.ty with
    | .Start _ => pendingAfter rest (k + 1)
    | .End =>
      match k with
      | 0 => none
      | k + 1 => pendingAfter rest k

/-- A LIFO-balanced event sequence: no End underflows and every Start is
closed. -/
abbrev balanced (ms : List Measure) : Prop := pendingAfter ms 0 = some 0

/-- Whether the first path is an initial segment of the second. -/
def leadsToB : List Nat → List Nat → Bool
  | [], _ => true
  | _ :: _, [] => false
  | a :: q, b :: p => a = b && leadsToB q p

/-- How many scopes currently open at path have exactly the path q: one when
q is a nonempty initial segment of the current path, else zero (open scopes
sit at the distinct nonempty initial segments of the current path). -/
def openCnt (q path : List Nat) : Nat :=
  if q ≠ [] ∧ leadsToB q path then 1 else 0

/-- The whole forest seen as the children of a virtual root, so that root
operations of into_tree become path operations at the empty path. -/
def vroot (tree : List (Str × Node)) : Node := Node.mk [] tree 0

/-- Number of durations recorded at the node addressed by q (zero when the
path does not resolve). -/
def mlen (n : Node) (q : List Nat) : Nat :=
  match getDesc n q with
  | some m => (Node.measures m).length
  | none => 0

/-- Instrumented builder state: the three into_tree locals plus two ghost
fields, the list of paths entered by each Start (in order) and the count of
processed End events. -/
structure IState where
  tree : List (Str × Node)
  path : List Nat
  starts : List Instant
  log : List (List Nat)
  ends : Nat

/-- The instrumented step: identical to into_tree_step on tree, path and
start times, and additionally records the path entered by a Start and counts
End events. -/
def stepI (s : IState) (m : Measure) : Except String IState :=
  match m.ty with
  | .Start name =>
    let s : IState := { s with starts := m.time :: s.starts }
    match get_current s.path s.tree with
    | none =>
      match get_index_of s.tree name with
      | some idx => .ok { s with
          path := s.path ++ [idx],
          log := s.log ++ [s.path ++ [idx]] }
      | none => .ok { s with
          tree := s.tree ++ [(name, Node.new 0)],
          path := s.path ++ [s.tree.length],
          log := s.log ++ [s.path ++ [s.tree.length]] }
    | some current =>
      match get_index_of (Node.children current) name with
      | some idx => .ok { s with
          path := s.path ++ [idx],
          log := s.log ++ [s.path ++ [idx]] }
      | none => .ok { s with
          tree := modify_current (appendChild name (Node.depth current + 1)) s.path s.tree,
          path := s.path ++ [(Node.children current).length],
          log := s.log ++ [s.path ++ [(Node.children current).length]] }
  | .End =>
    match get_current s.path s.tree with
    | none => .error "profi: pop called and current is None, this should never happen!"
    | some _ =>
      match s.starts with
      | [] => .error "profi: pop called and start_times is empty, this should never happen!"
      | start :: rest =>
        .ok { s with
          tree := modify_current (pushMeas (m.time - start)) s.path s.tree,
          path := s.path.dropLast,
          starts := rest,
          ends := s.ends + 1 }

/-- Forget the ghost fields of the instrumented state. -/
def projI (s : IState) : BuildState := BuildState.mk s.tree s.path s.starts

/-- Run the instrumented builder from the initial state. -/
def runI (ms : List Measure) : Except String IState :=
  List.foldlM stepI (IState.mk [] [] [] [] 0) ms

/-- The multiset (as an ordered list) of node paths entered by the Start
events of a run; one entry per Start, in event order. -/
def entersLog (ms : List Measure) : List (List Nat) :=
  match runI ms with
  | .ok s => s.log
  | .error _ => []

/-- k iterations of a loop profiling one scope: Start then End, k times. -/
def loopEvents (name : Str) (k : Nat) : List Measure :=
  (List.replicate k [Measure.mk (MeasureType.Start name) 0, Measure.mk MeasureType.End 0]).flatten

/-- Concrete events for a scope that re-enters itself recursively once:
two nested Starts of the same name, then the two matching Ends. -/
def msRec : List Measure :=
  [Measure.mk (MeasureType.Start "a") 0, Measure.mk (MeasureType.Start "a") 0,
   Measure.mk MeasureType.End 2, Measure.mk MeasureType.End 4]

/-- One finalized thread whose stored elapsed time (5) differs from the sum
of its root scope durations (2). -/
def threadsC1 : List (Duration × List Measure) :=
  [(5, [Measure.mk (MeasureType.Start "a") 0, Measure.mk MeasureType.End 2])]

/-- One finalized thread with a single zero-duration scope, making the total
application time zero. -/
def threadsZero : List (Duration × List Measure) :=
  [(0, [Measure.mk (MeasureType.Start "a") 0, Measure.mk MeasureType.End 0])]

/-- The builder invariant: path and start-time stacks stay the same height,
the current path resolves in the tree, the total number of stored durations
equals the number of processed End events, and for every nonempty path q the
number of Starts that entered q equals the durations stored at q plus one if
q is still open (an initial segment of the current path). -/
structure BuildInv (s : IState) : Prop where
  len_eq : s.path.length = s.starts.length
  valid : s.path ≠ [] → (getDesc (vroot s.tree) s.path).isSome
  total : measTotal (vroot s.tree) = s.ends
  counts : ∀ q : List Nat, q ≠ [] →
    List.count q s.log = mlen (vroot s.tree) q + openCnt q s.path

/-! ## Basic lemmas about the list and tree helpers -/

@[simp] theorem listModify_nil (n : Nat) (f : α → α) : listModify [] n f = [] := rfl

@[simp] theorem listModify_cons_zero (a : α) (l : List α) (f : α → α) :
    listModify (a :: l) 0 f = f a :: l := rfl

@[simp] theorem listModify_cons_succ (a : α) (l : List α) (n : Nat) (f : α → α) :
    listModify (a :: l) (n + 1) f = a :: listModify l n f := rfl

theorem listModify_length (l : List α) (n : Nat) (f : α → α) :
    (listModify l n f).length = l.length := by
  induction l generalizing n with
  | nil => rfl
  | cons a l ih => cases n <;> simp [ih]

theorem get?_listModify_eq (l : List α) (n : Nat) (f : α → α) :
    (listModify l n f)[n]? = (l[n]?).map f := by
  induction l generalizing n with
  | nil => cases n <;> rfl
  | cons a l ih => cases n <;> simp [ih]

theorem get?_listModify_ne (l : List α) (n m : Nat) (f : α → α) (h : m ≠ n) :
    (listModify l n f)[m]? = l[m]? := by
  induction l generalizing n m with
  | nil => cases n <;> rfl
  | cons a l ih =>
    cases n with
    | zero => cases m with
      | zero => exact absurd rfl h
      | succ m => simp
    | succ n => cases m with
      | zero => simp
      | succ m => simpa using ih n m (by omega)

theorem listModify_append_length (l : List α) (a : α) (f : α → α) :
    listModify (l ++ [a]) l.length f = l ++ [f a] := by
  induction l with
  | nil => rfl
  | cons b l ih => simpa using ih

theorem get_index_of_get? {l : List (Str × α)} {name : Str} {i : Nat}
    (h : get_index_of l name = some i) : ∃ v, l[i]? = some (name, v) := by
  induction l generalizing i with
  | nil => simp [get_index_of] at h
  | cons a l ih =>
    obtain ⟨k, v⟩ := a
    by_cases hk : k = name
    · simp [get_index_of, hk] at h
      subst hk h
      exact ⟨v, by simp⟩
    · simp [get_index_of, hk] at h
      obtain ⟨j, hj, rfl⟩ := h
      obtain ⟨w, hw⟩ := ih hj
      exact ⟨w, by simpa using hw⟩

@[simp] theorem Node.measures_mk (m : List Duration) (c : List (Str × Node)) (d : Nat) :
    Node.measures (Node.mk m c d) = m := rfl

@[simp] theorem Node.children_mk (m : List Duration) (c : List (Str × Node)) (d : Nat) :
    Node.children (Node.mk m c d) = c := rfl

@[simp] theorem Node.depth_mk (m : List Duration) (c : List (Str × Node)) (d : Nat) :
    Node.depth (Node.mk m c d) = d := rfl

@[simp] theorem getDesc_nil (n : Node) : getDesc n [] = some n := rfl

theorem getDesc_cons (n : Node) (c : Nat) (rest : List Nat) :
    getDesc n (c :: rest) =
      match (Node.children n)[c]? with
      | some p => getDesc p.2 rest
      | none => none := rfl

@[simp] theorem modifyDesc_nil (f : Node → Node) (n : Node) : modifyDesc f n [] = f n := rfl

theorem modifyDesc_cons (f : Node → Node) (n : Node) (c : Nat) (rest : List Nat) :
    modifyDesc f n (c :: rest) =
      Node.mk (Node.measures n)
        (listModify (Node.children n) c (fun p => (p.1, modifyDesc f p.2 rest)))
        (Node.depth n) := rfl

@[simp] theorem get_current_nil (tree : List (Str × Node)) : get_current [] tree = none := rfl
theorem get_index_of_length {l : List (Str × α)} {name : Str} {i : Nat}
    (h : get_index_of l name = some i) : i < l.length := by
  obtain ⟨v, hv⟩ := get_index_of_get? h
  exact (List.getElem?_eq_some.mp hv).1

theorem getDesc_append (p q : List Nat) (n : Node) :
    getDesc n (p ++ q) = (getDesc n p).bind (fun m => getDesc m q) := by
  induction p generalizing n with
  | nil => simp
  | cons c rest ih =>
    simp only [List.cons_append, getDesc_cons]
    cases (Node.children n)[c]? with
    | none => rfl
    | some pr => exact ih pr.2

theorem get_current_eq_getDesc (p : List Nat) (tree : List (Str × Node)) (h : p ≠ []) :
    get_current p tree = getDesc (vroot tree) p := by
  cases p with
  | nil => exact absurd rfl h
  | cons i rest =>
    show get_current (i :: rest) tree = getDesc (vroot tree) (i :: rest)
    rw [getDesc_cons]
    rfl

theorem vroot_modify_current (f : Node → Node) (p : List Nat) (tree : List (Str × Node))
    (h : p ≠ []) :
    vroot (modify_current f p tree) = modifyDesc f (vroot tree) p := by
  cases p with
  | nil => exact absurd rfl h
  | cons i rest =>
    show vroot (listModify tree i _) = modifyDesc f (vroot tree) (i :: rest)
    rw [modifyDesc_cons]
    rfl

theorem vroot_append_root (tree : List (Str × Node)) (name : Str) :
    vroot (tree ++ [(name, Node.new 0)]) = modifyDesc (appendChild name 0) (vroot tree) [] := rfl

theorem getDesc_cons_eq (n : Node) (c : Nat) (rest : List Nat) :
    getDesc n (c :: rest) = ((Node.children n)[c]?).bind (fun p => getDesc p.2 rest) := by
  rw [getDesc_cons]
  cases (Node.children n)[c]? <;> rfl

theorem mlen_def (n : Node) (q : List Nat) :
    mlen n q = ((getDesc n q).map (fun m => (Node.measures m).length)).getD 0 := by
  cases h : getDesc n q <;> simp [mlen, h]

theorem mlen_nil (n : Node) : mlen n [] = (Node.measures n).length := by
  simp [mlen_def]

theorem mlen_cons (n : Node) (c : Nat) (r : List Nat) :
    mlen n (c :: r) =
      (match (Node.children n)[c]? with
       | some pr => mlen pr.2 r
       | none => 0) := by
  cases h : (Node.children n)[c]? <;> simp [mlen_def, getDesc_cons_eq, h]

theorem children_modifyDesc_cons (f : Node → Node) (n : Node) (c : Nat) (rest : List Nat) :
    Node.children (modifyDesc f n (c :: rest)) =
      listModify (Node.children n) c (fun p => (p.1, modifyDesc f p.2 rest)) := by
  rw [modifyDesc_cons]
  rfl

theorem measures_modifyDesc_cons (f : Node → Node) (n : Node) (c : Nat) (rest : List Nat) :
    Node.measures (modifyDesc f n (c :: rest)) = Node.measures n := by
  rw [modifyDesc_cons]
  rfl

theorem mlen_modify_pushMeas (d : Duration) :
    ∀ (p : List Nat) (n : Node), (getDesc n p).isSome →
      ∀ q : List Nat, mlen (modifyDesc (pushMeas d) n p) q =
        mlen n q + (if q = p then 1 else 0) := by
  intro p
  induction p with
  | nil =>
    intro n _ q
    cases q with
    | nil => simp [mlen_nil, pushMeas]
    | cons c r => simp [mlen_cons, pushMeas]
  | cons c rest ih =>
    intro n hn q
    rw [getDesc_cons_eq] at hn
    cases hch : (Node.children n)[c]? with
    | none => rw [hch] at hn; simp at hn
    | some pr =>
      rw [hch] at hn
      simp only [Option.some_bind] at hn
      cases q with
      | nil => simp [mlen_nil, measures_modifyDesc_cons]
      | cons c2 r2 =>
        rw [mlen_cons, mlen_cons, children_modifyDesc_cons]
        by_cases hcc : c2 = c
        · subst hcc
          rw [get?_listModify_eq, hch]
          simp only [Option.map_some']
          rw [ih pr.2 hn r2]
          by_cases hr : r2 = rest <;> simp [hr]
        · rw [get?_listModify_ne _ _ _ _ hcc]
          have : ¬ (c2 :: r2 = c :: rest) := by
            intro hcon
            exact hcc (List.cons_eq_cons.mp hcon).1
          cases (Node.children n)[c2]? <;> simp [this]

theorem isSome_modify_pushMeas (d : Duration) :
    ∀ (p q : List Nat) (n : Node),
      (getDesc (modifyDesc (pushMeas d) n p) q).isSome = (getDesc n q).isSome := by
  intro p
  induction p with
  | nil =>
    intro q n
    cases q with
    | nil => simp
    | cons c r => simp [getDesc_cons_eq, pushMeas]
  | cons c rest ih =>
    intro q n
    cases q with
    | nil => simp
    | cons c2 r2 =>
      rw [getDesc_cons_eq, getDesc_cons_eq, children_modifyDesc_cons]
      by_cases hcc : c2 = c
      · subst hcc
        rw [get?_listModify_eq]
        cases hch : (Node.children n)[c2]? with
        | none => simp
        | some pr => simp [ih r2 pr.2]
      · rw [get?_listModify_ne _ _ _ _ hcc]

theorem mlen_modify_appendChild (name : Str) (dep : Nat) :
    ∀ (p : List Nat) (n : Node) (q : List Nat),
      mlen (modifyDesc (appendChild name dep) n p) q = mlen n q := by
  intro p
  induction p with
  | nil =>
    intro n q
    cases q with
    | nil => simp [mlen_nil, appendChild]
    | cons c r =>
      rw [mlen_cons, mlen_cons]
      show (match (Node.children n ++ [(name, Node.new dep)])[c]? with
            | some pr => mlen pr.2 r
            | none => 0) = _
      rcases Nat.lt_trichotomy c (Node.children n).length with hlt | heq | hgt
      · rw [List.getElem?_append, if_pos hlt]
      · subst heq
        rw [List.getElem?_concat_length]
        have hn : (Node.children n)[(Node.children n).length]? = none :=
          List.getElem?_eq_none (Nat.le_refl _)
        rw [hn]
        cases r with
        | nil => simp [mlen_nil, Node.new]
        | cons c2 r2 => simp [mlen_cons, Node.new]
      · have h1 : ((Node.children n) ++ [(name, Node.new dep)])[c]? = none :=
          List.getElem?_eq_none (by simp; omega)
        have h2 : (Node.children n)[c]? = none :=
          List.getElem?_eq_none (by omega)
        rw [h1, h2]
  | cons c rest ih =>
    intro n q
    cases q with
    | nil => simp [mlen_nil, measures_modifyDesc_cons]
    | cons c2 r2 =>
      rw [mlen_cons, mlen_cons, children_modifyDesc_cons]
      by_cases hcc : c2 = c
      · subst hcc
        rw [get?_listModify_eq]
        cases hch : (Node.children n)[c2]? with
        | none => simp
        | some pr => simp [ih pr.2 r2]
      · rw [get?_listModify_ne _ _ _ _ hcc]

theorem isSome_modify_appendChild (name : Str) (dep : Nat) :
    ∀ (p q : List Nat) (n : Node), (getDesc n q).isSome →
      (getDesc (modifyDesc (appendChild name dep) n p) q).isSome := by
  intro p
  induction p with
  | nil =>
    intro q n hq
    cases q with
    | nil => simp
    | cons c r =>
      rw [getDesc_cons_eq] at hq ⊢
      cases hch : (Node.children n)[c]? with
      | none => rw [hch] at hq; simp at hq
      | some pr =>
        rw [hch] at hq
        have hlt : c < (Node.children n).length := (List.getElem?_eq_some.mp hch).1
        show (((Node.children n ++ [(name, Node.new dep)])[c]?).bind
          (fun p => getDesc p.2 r)).isSome = true
        rw [List.getElem?_append, if_pos hlt, hch]
        exact hq
  | cons c rest ih =>
    intro q n hq
    cases q with
    | nil => simp
    | cons c2 r2 =>
      rw [getDesc_cons_eq] at hq ⊢
      rw [children_modifyDesc_cons]
      by_cases hcc : c2 = c
      · subst hcc
        rw [get?_listModify_eq]
        cases hch : (Node.children n)[c2]? with
        | none => rw [hch] at hq; simp at hq
        | some pr =>
          rw [hch] at hq
          simp only [Option.map_some', Option.some_bind] at hq ⊢
          exact ih r2 pr.2 hq
      · rw [get?_listModify_ne _ _ _ _ hcc]
        exact hq

theorem getDesc_modify_appendChild_new (name : Str) (dep : Nat) :
    ∀ (p : List Nat) (n : Node) (m : Node), getDesc n p = some m →
      getDesc (modifyDesc (appendChild name dep) n p)
        (p ++ [(Node.children m).length]) = some (Node.new dep) := by
  intro p
  induction p with
  | nil =>
    intro n m hm
    simp only [getDesc_nil, Option.some.injEq] at hm
    subst hm
    rw [List.nil_append, getDesc_cons_eq]
    show ((Node.children n ++ [(name, Node.new dep)])[(Node.children n).length]?).bind
      (fun p => getDesc p.2 []) = some (Node.new dep)
    rw [List.getElem?_concat_length]
    rfl
  | cons c rest ih =>
    intro n m hm
    rw [getDesc_cons_eq] at hm
    cases hch : (Node.children n)[c]? with
    | none => rw [hch] at hm; simp at hm
    | some pr =>
      rw [hch] at hm
      simp only [Option.some_bind] at hm
      rw [List.cons_append, getDesc_cons_eq, children_modifyDesc_cons,
        get?_listModify_eq, hch]
      simp only [Option.map_some', Option.some_bind]
      exact ih pr.2 m hm

theorem measTotalF_cons (p : Str × Node) (l : List (Str × Node)) :
    measTotalF (p :: l) = measTotal p.2 + measTotalF l := by
  cases p
  simp [measTotalF]

theorem measTotal_mk (ms : List Duration) (ch : List (Str × Node)) (d : Nat) :
    measTotal (Node.mk ms ch d) = ms.length + measTotalF ch := by
  simp [measTotal]

theorem measTotalF_nil : measTotalF [] = 0 := by simp [measTotalF]

theorem measTotalF_append (l1 l2 : List (Str × Node)) :
    measTotalF (l1 ++ l2) = measTotalF l1 + measTotalF l2 := by
  induction l1 with
  | nil => simp [measTotalF_nil]
  | cons p l ih => rw [List.cons_append, measTotalF_cons, measTotalF_cons, ih]; omega

theorem measTotal_children (n : Node) :
    measTotal n = (Node.measures n).length + measTotalF (Node.children n) := by
  cases n
  simp [measTotal_mk]

theorem measTotalF_listModify (ch : List (Str × Node)) (c : Nat) (pr : Str × Node)
    (g : Str × Node → Str × Node) (h : ch[c]? = some pr) :
    measTotalF (listModify ch c g) + measTotal pr.2 =
      measTotalF ch + measTotal (g pr).2 := by
  induction ch generalizing c with
  | nil => simp at h
  | cons a l ih =>
    cases c with
    | zero =>
      simp only [List.getElem?_cons_zero, Option.some.injEq] at h
      subst h
      rw [listModify_cons_zero, measTotalF_cons, measTotalF_cons]
      omega
    | succ c =>
      simp only [List.getElem?_cons_succ] at h
      rw [listModify_cons_succ, measTotalF_cons, measTotalF_cons]
      have := ih c h
      omega

theorem measTotal_modify_pushMeas (d : Duration) :
    ∀ (p : List Nat) (n : Node), (getDesc n p).isSome →
      measTotal (modifyDesc (pushMeas d) n p) = measTotal n + 1 := by
  intro p
  induction p with
  | nil =>
    intro n _
    rw [modifyDesc_nil]
    show measTotal (Node.mk (Node.measures n ++ [d]) (Node.children n) (Node.depth n)) = _
    rw [measTotal_mk, measTotal_children n]
    simp
    omega
  | cons c rest ih =>
    intro n hn
    rw [getDesc_cons_eq] at hn
    cases hch : (Node.children n)[c]? with
    | none => rw [hch] at hn; simp at hn
    | some pr =>
      rw [hch] at hn
      simp only [Option.some_bind] at hn
      rw [modifyDesc_cons, measTotal_mk, measTotal_children n]
      have hlm := measTotalF_listModify (Node.children n) c pr
        (fun p => (p.1, modifyDesc (pushMeas d) p.2 rest)) hch
      have hrec := ih pr.2 hn
      simp only at hlm
      omega

theorem measTotal_new (d : Nat) : measTotal (Node.new d) = 0 := by
  simp [Node.new, measTotal_mk, measTotalF_nil]

theorem measTotal_modify_appendChild (name : Str) (dep : Nat) :
    ∀ (p : List Nat) (n : Node),
      measTotal (modifyDesc (appendChild name dep) n p) = measTotal n := by
  intro p
  induction p with
  | nil =>
    intro n
    rw [modifyDesc_nil]
    show measTotal (Node.mk (Node.measures n) (Node.children n ++ [(name, Node.new dep)])
      (Node.depth n)) = _
    rw [measTotal_mk, measTotalF_append, measTotal_children n]
    rw [measTotalF_cons, measTotalF_nil, measTotal_new]
    omega
  | cons c rest ih =>
    intro n
    rw [modifyDesc_cons, measTotal_mk, measTotal_children n]
    cases hch : (Node.children n)[c]? with
    | none =>
      have : c ≥ (Node.children n).length := by
        by_contra hc
        rw [List.getElem?_eq_getElem (by omega)] at hch
        exact Option.noConfusion hch
      -- out of range: listModify is the identity
      have hid : listModify (Node.children n) c
          (fun p => (p.1, modifyDesc (appendChild name dep) p.2 rest)) = Node.children n := by
        clear ih hch
        generalize Node.children n = l at this ⊢
        induction l generalizing c with
        | nil => simp
        | cons a l ihl =>
          cases c with
          | zero => simp at this
          | succ c =>
            rw [listModify_cons_succ, ihl c (by simpa using this)]
      rw [hid]
    | some pr =>
      have hlm := measTotalF_listModify (Node.children n) c pr
        (fun p => (p.1, modifyDesc (appendChild name dep) p.2 rest)) hch
      have hrec := ih pr.2
      simp only at hlm
      omega

theorem append_singleton_inj {l l2 : List Nat} {a a2 : Nat}
    (h : l ++ [a] = l2 ++ [a2]) : l = l2 ∧ a = a2 := by
  have h1 := congrArg List.reverse h
  simp at h1
  exact ⟨h1.2, h1.1⟩

theorem leadsToB_iff : ∀ q p : List Nat, leadsToB q p = true ↔ ∃ r, p = q ++ r := by
  intro q
  induction q with
  | nil => intro p; simp [leadsToB]
  | cons a q ih =>
    intro p
    cases p with
    | nil =>
      simp [leadsToB]
    | cons b p =>
      simp only [leadsToB, Bool.and_eq_true, decide_eq_true_eq, ih p]
      constructor
      · rintro ⟨rfl, r, rfl⟩
        exact ⟨r, rfl⟩
      · rintro ⟨r, hr⟩
        rw [List.cons_append] at hr
        obtain ⟨rfl, rfl⟩ := List.cons_eq_cons.mp hr
        exact ⟨rfl, r, rfl⟩

theorem leadsToB_refl (p : List Nat) : leadsToB p p = true :=
  (leadsToB_iff p p).mpr ⟨[], by simp⟩

theorem leadsToB_nil_right {q : List Nat} : leadsToB q [] = true ↔ q = [] := by
  rw [leadsToB_iff]
  constructor
  · rintro ⟨r, hr⟩
    exact List.append_eq_nil.mp hr.symm |>.1
  · rintro rfl
    exact ⟨[], rfl⟩

theorem leadsToB_length {q p : List Nat} (h : leadsToB q p = true) :
    q.length ≤ p.length := by
  obtain ⟨r, rfl⟩ := (leadsToB_iff q p).mp h
  simp

theorem leadsToB_append_singleton (q p : List Nat) (x : Nat) :
    leadsToB q (p ++ [x]) = true ↔ (leadsToB q p = true ∨ q = p ++ [x]) := by
  rw [leadsToB_iff, leadsToB_iff]
  constructor
  · rintro ⟨r, hr⟩
    rcases List.eq_nil_or_concat r with rfl | ⟨r2, y, rfl⟩
    · right
      simpa using hr.symm
    · left
      rw [List.concat_eq_append, ← List.append_assoc] at hr
      obtain ⟨h1, _⟩ := append_singleton_inj hr
      exact ⟨r2, h1⟩
  · rintro (⟨r, rfl⟩ | rfl)
    · exact ⟨r ++ [x], by simp⟩
    · exact ⟨[], by simp⟩

theorem leadsToB_dropLast {q p : List Nat} (hp : p ≠ []) :
    leadsToB q p.dropLast = true ↔ (leadsToB q p = true ∧ q ≠ p) := by
  have hdec := List.dropLast_append_getLast hp
  constructor
  · intro h
    have hlen := leadsToB_length h
    have hlenp : p.dropLast.length < p.length := by
      conv_rhs => rw [← hdec]
      simp
    constructor
    · rw [← hdec, leadsToB_append_singleton]
      exact Or.inl h
    · intro hqp
      subst hqp
      omega
  · rintro ⟨h, hne⟩
    rw [← hdec, leadsToB_append_singleton] at h
    rcases h with h | h
    · exact h
    · exact absurd (by rw [h, hdec]) hne

theorem openCnt_nil_path (q : List Nat) : openCnt q [] = 0 := by
  unfold openCnt
  by_cases hq : q = []
  · simp [hq]
  · simp [hq, leadsToB_nil_right]

theorem openCnt_append (q p : List Nat) (x : Nat) (hq : q ≠ []) :
    openCnt q (p ++ [x]) = openCnt q p + (if q = p ++ [x] then 1 else 0) := by
  unfold openCnt
  by_cases he : q = p ++ [x]
  · subst he
    have hnl : leadsToB (p ++ [x]) p = false := by
      rw [Bool.eq_false_iff]
      intro hl
      have := leadsToB_length hl
      simp at this
    simp [hq, hnl, leadsToB_refl]
  · by_cases hl : leadsToB q p = true
    · have : leadsToB q (p ++ [x]) = true := (leadsToB_append_singleton q p x).mpr (Or.inl hl)
      simp [hq, this, hl, he]
    · have : ¬ leadsToB q (p ++ [x]) = true := by
        intro hcon
        rcases (leadsToB_append_singleton q p x).mp hcon with h | h
        · exact hl h
        · exact he h
      simp [hq, this, hl, he]

theorem openCnt_dropLast (q p : List Nat) (hp : p ≠ []) (hq : q ≠ []) :
    openCnt q p = openCnt q p.dropLast + (if q = p then 1 else 0) := by
  unfold openCnt
  by_cases he : q = p
  · subst he
    have hnd : ¬ leadsToB q q.dropLast = true := by
      intro hl
      exact absurd ((leadsToB_dropLast hp).mp hl).2 (by simp)
    simp [hq, hnd, leadsToB_refl]
  · by_cases hl : leadsToB q p = true
    · have : leadsToB q p.dropLast = true := (leadsToB_dropLast hp).mpr ⟨hl, he⟩
      simp [hq, this, hl, he]
    · have : ¬ leadsToB q p.dropLast = true := by
        intro hcon
        exact hl ((leadsToB_dropLast hp).mp hcon).1
      simp [hq, this, hl, he]

theorem count_append_singleton (log : List (List Nat)) (z q : List Nat) :
    List.count q (log ++ [z]) = List.count q log + (if q = z then 1 else 0) := by
  rw [List.count_append, List.count_singleton]
  simp only [beq_iff_eq]
  by_cases h : q = z
  · simp [h]
  · have h2 : ¬ z = q := fun hc => h hc.symm
    simp [h, h2]

theorem buildInv_enter (s : IState) (idx : Nat) (t : Instant) (h : BuildInv s)
    (hvalid : (getDesc (vroot s.tree) (s.path ++ [idx])).isSome) :
    BuildInv { s with
      starts := t :: s.starts
      path := s.path ++ [idx]
      log := s.log ++ [s.path ++ [idx]] } := by
  constructor
  · simp [h.len_eq]
  · intro _
    simpa using hvalid
  · simpa using h.total
  · intro q hq
    simp only
    rw [count_append_singleton, openCnt_append _ _ _ hq, h.counts q hq]
    omega

theorem buildInv_enter_new (s : IState) (name : Str) (dep : Nat) (t : Instant)
    (tree2 : List (Str × Node)) (m : Node) (h : BuildInv s)
    (hm : getDesc (vroot s.tree) s.path = some m)
    (htree2 : vroot tree2 = modifyDesc (appendChild name dep) (vroot s.tree) s.path) :
    BuildInv { s with
      tree := tree2
      starts := t :: s.starts
      path := s.path ++ [(Node.children m).length]
      log := s.log ++ [s.path ++ [(Node.children m).length]] } := by
  constructor
  · simp [h.len_eq]
  · intro _
    simp only
    rw [htree2]
    have := getDesc_modify_appendChild_new name dep s.path (vroot s.tree) m hm
    simp [this]
  · simp only
    rw [htree2, measTotal_modify_appendChild, h.total]
  · intro q hq
    simp only
    rw [htree2, mlen_modify_appendChild,
      count_append_singleton, openCnt_append _ _ _ hq, h.counts q hq]
    omega

theorem buildInv_end (s : IState) (d : Duration) (st0 : Instant) (rest : List Instant)
    (h : BuildInv s) (hp : s.path ≠ []) (hst : s.starts = st0 :: rest) :
    BuildInv { s with
      tree := modify_current (pushMeas d) s.path s.tree
      path := s.path.dropLast
      starts := rest
      ends := s.ends + 1 } := by
  have hvalid := h.valid hp
  have hv : vroot (modify_current (pushMeas d) s.path s.tree)
      = modifyDesc (pushMeas d) (vroot s.tree) s.path := vroot_modify_current _ _ _ hp
  constructor
  · have hle := h.len_eq
    rw [hst] at hle
    simp only [List.length_dropLast, List.length_cons] at hle ⊢
    omega
  · intro _
    simp only
    rw [hv, isSome_modify_pushMeas]
    obtain ⟨cur, hcur⟩ := Option.isSome_iff_exists.mp hvalid
    have hdecomp := List.dropLast_append_getLast hp
    rw [← hdecomp, getDesc_append] at hcur
    cases hd : getDesc (vroot s.tree) s.path.dropLast with
    | none => rw [hd] at hcur; simp at hcur
    | some _ => simp
  · simp only
    rw [hv, measTotal_modify_pushMeas d s.path _ hvalid, h.total]
  · intro q hq
    simp only
    rw [hv, mlen_modify_pushMeas d s.path _ hvalid q]
    have hopen := openCnt_dropLast q s.path hp hq
    have hcnt := h.counts q hq
    omega

theorem stepI_start_eq_root_found (s : IState) (name : Str) (t : Instant) (idx : Nat)
    (hgc : get_current s.path s.tree = none) (hidx : get_index_of s.tree name = some idx) :
    stepI s (Measure.mk (MeasureType.Start name) t) = .ok { s with
      starts := t :: s.starts
      path := s.path ++ [idx]
      log := s.log ++ [s.path ++ [idx]] } := by
  simp only [stepI, hgc, hidx]

theorem stepI_start_eq_root_new (s : IState) (name : Str) (t : Instant)
    (hgc : get_current s.path s.tree = none) (hidx : get_index_of s.tree name = none) :
    stepI s (Measure.mk (MeasureType.Start name) t) = .ok { s with
      tree := s.tree ++ [(name, Node.new 0)]
      starts := t :: s.starts
      path := s.path ++ [s.tree.length]
      log := s.log ++ [s.path ++ [s.tree.length]] } := by
  simp only [stepI, hgc, hidx]

theorem stepI_start_eq_child_found (s : IState) (name : Str) (t : Instant) (cur : Node)
    (idx : Nat) (hgc : get_current s.path s.tree = some cur)
    (hidx : get_index_of (Node.children cur) name = some idx) :
    stepI s (Measure.mk (MeasureType.Start name) t) = .ok { s with
      starts := t :: s.starts
      path := s.path ++ [idx]
      log := s.log ++ [s.path ++ [idx]] } := by
  simp only [stepI, hgc, hidx]

theorem stepI_start_eq_child_new (s : IState) (name : Str) (t : Instant) (cur : Node)
    (hgc : get_current s.path s.tree = some cur)
    (hidx : get_index_of (Node.children cur) name = none) :
    stepI s (Measure.mk (MeasureType.Start name) t) = .ok { s with
      tree := modify_current (appendChild name (Node.depth cur + 1)) s.path s.tree
      starts := t :: s.starts
      path := s.path ++ [(Node.children cur).length]
      log := s.log ++ [s.path ++ [(Node.children cur).length]] } := by
  simp only [stepI, hgc, hidx]

theorem stepI_end_eq_ok (s : IState) (t : Instant) (cur : Node) (st0 : Instant)
    (rest : List Instant) (hgc : get_current s.path s.tree = some cur)
    (hst : s.starts = st0 :: rest) :
    stepI s (Measure.mk MeasureType.End t) = .ok { s with
      tree := modify_current (pushMeas (t - st0)) s.path s.tree
      path := s.path.dropLast
      starts := rest
      ends := s.ends + 1 } := by
  simp only [stepI, hgc, hst]

theorem stepI_end_eq_err (s : IState) (t : Instant)
    (hgc : get_current s.path s.tree = none) :
    stepI s (Measure.mk MeasureType.End t) =
      .error "profi: pop called and current is None, this should never happen!" := by
  simp only [stepI, hgc]

theorem stepI_start_inv (s : IState) (name : Str) (t : Instant) (h : BuildInv s) :
    ∃ s2, stepI s (Measure.mk (MeasureType.Start name) t) = .ok s2 ∧ BuildInv s2 ∧
      s2.path.length = s.path.length + 1 ∧ s2.ends = s.ends := by
  cases hgc : get_current s.path s.tree with
  | none =>
    have hp : s.path = [] := by
      by_contra hne
      have hs := h.valid hne
      rw [← get_current_eq_getDesc _ _ hne, hgc] at hs
      simp at hs
    cases hidx : get_index_of s.tree name with
    | some idx =>
      obtain ⟨v, hv⟩ := get_index_of_get? hidx
      have hvalid : (getDesc (vroot s.tree) (s.path ++ [idx])).isSome := by
        rw [hp, List.nil_append, getDesc_cons_eq]
        have hvc : (Node.children (vroot s.tree))[idx]? = some (name, v) := hv
        rw [hvc]
        simp
      exact ⟨_, stepI_start_eq_root_found s name t idx hgc hidx,
        buildInv_enter s idx t h hvalid, by simp, rfl⟩
    | none =>
      have hm : getDesc (vroot s.tree) s.path = some (vroot s.tree) := by
        rw [hp]
        rfl
      have htree2 : vroot (s.tree ++ [(name, Node.new 0)])
          = modifyDesc (appendChild name 0) (vroot s.tree) s.path := by
        rw [hp]
        exact vroot_append_root s.tree name
      exact ⟨_, stepI_start_eq_root_new s name t hgc hidx,
        buildInv_enter_new s name 0 t (s.tree ++ [(name, Node.new 0)]) (vroot s.tree)
          h hm htree2, by simp, rfl⟩
  | some cur =>
    have hpne : s.path ≠ [] := by
      intro he
      rw [he] at hgc
      simp at hgc
    have hm : getDesc (vroot s.tree) s.path = some cur := by
      rw [← get_current_eq_getDesc _ _ hpne]
      exact hgc
    cases hidx : get_index_of (Node.children cur) name with
    | some idx =>
      obtain ⟨v, hv⟩ := get_index_of_get? hidx
      have hvalid : (getDesc (vroot s.tree) (s.path ++ [idx])).isSome := by
        rw [getDesc_append, hm]
        simp only [Option.some_bind]
        rw [getDesc_cons_eq, hv]
        simp
      exact ⟨_, stepI_start_eq_child_found s name t cur idx hgc hidx,
        buildInv_enter s idx t h hvalid, by simp, rfl⟩
    | none =>
      have htree2 : vroot (modify_current (appendChild name (Node.depth cur + 1)) s.path s.tree)
          = modifyDesc (appendChild name (Node.depth cur + 1)) (vroot s.tree) s.path :=
        vroot_modify_current _ _ _ hpne
      exact ⟨_, stepI_start_eq_child_new s name t cur hgc hidx,
        buildInv_enter_new s name (Node.depth cur + 1) t _ cur h hm htree2, by simp, rfl⟩

theorem stepI_end_inv (s : IState) (t : Instant) (h : BuildInv s) (hp : s.path ≠ []) :
    ∃ s2, stepI s (Measure.mk MeasureType.End t) = .ok s2 ∧ BuildInv s2 ∧
      s2.path.length + 1 = s.path.length ∧ s2.ends = s.ends + 1 := by
  have hvalid := h.valid hp
  obtain ⟨cur, hcur⟩ := Option.isSome_iff_exists.mp hvalid
  have hgc : get_current s.path s.tree = some cur := by
    rw [get_current_eq_getDesc _ _ hp]
    exact hcur
  have hstlen := h.len_eq
  cases hst : s.starts with
  | nil =>
    rw [hst] at hstlen
    simp only [List.length_nil] at hstlen
    exact absurd (List.length_eq_zero.mp hstlen) hp
  | cons st0 rest =>
    refine ⟨_, stepI_end_eq_ok s t cur st0 rest hgc hst,
      buildInv_end s (t - st0) st0 rest h hp hst, ?_, rfl⟩
    simp only [List.length_dropLast]
    have hpos := List.length_pos.mpr hp
    omega

theorem countStarts_nil : countStarts [] = 0 := rfl

theorem countEnds_nil : countEnds [] = 0 := rfl

theorem countStarts_cons_start (name : Str) (t : Instant) (l : List Measure) :
    countStarts (Measure.mk (MeasureType.Start name) t :: l) = countStarts l + 1 := by
  simp [countStarts, List.countP_cons]

theorem countStarts_cons_end (t : Instant) (l : List Measure) :
    countStarts (Measure.mk MeasureType.End t :: l) = countStarts l := by
  simp [countStarts, List.countP_cons]

theorem countEnds_cons_start (name : Str) (t : Instant) (l : List Measure) :
    countEnds (Measure.mk (MeasureType.Start name) t :: l) = countEnds l := by
  simp [countEnds, List.countP_cons]

theorem countEnds_cons_end (t : Instant) (l : List Measure) :
    countEnds (Measure.mk MeasureType.End t :: l) = countEnds l + 1 := by
  simp [countEnds, List.countP_cons]

theorem pendingAfter_counts : ∀ (ms : List Measure) (k j : Nat),
    pendingAfter ms k = some j → k + countStarts ms = j + countEnds ms := by
  intro ms
  induction ms with
  | nil =>
    intro k j h
    simp only [pendingAfter, Option.some.injEq] at h
    subst h
    simp [countStarts_nil, countEnds_nil]
  | cons m rest ih =>
    intro k j h
    obtain ⟨ty, t⟩ := m
    cases ty with
    | Start name =>
      simp only [pendingAfter] at h
      have := ih (k + 1) j h
      rw [countStarts_cons_start, countEnds_cons_start]
      omega
    | End =>
      simp only [pendingAfter] at h
      cases k with
      | zero => exact Option.noConfusion h
      | succ k =>
        have := ih k j h
        rw [countStarts_cons_end, countEnds_cons_end]
        omega

theorem buildInv_init : BuildInv (IState.mk [] [] [] [] 0) := by
  constructor
  · rfl
  · intro hp
    exact absurd rfl hp
  · rfl
  · intro q hq
    rw [openCnt_nil_path]
    cases q with
    | nil => exact absurd rfl hq
    | cons c r =>
      rw [mlen_cons]
      show (0 : Nat) = (match ([] : List (Str × Node))[c]? with
        | some pr => mlen pr.2 r
        | none => 0) + 0
      simp

theorem runI_inv : ∀ (ms : List Measure) (s : IState) (j : Nat), BuildInv s →
    pendingAfter ms s.path.length = some j →
    ∃ s2, List.foldlM stepI s ms = .ok s2 ∧ BuildInv s2 ∧ s2.path.length = j ∧
      s2.ends = s.ends + countEnds ms := by
  intro ms
  induction ms with
  | nil =>
    intro s j hinv hpend
    simp only [pendingAfter, Option.some.injEq] at hpend
    exact ⟨s, rfl, hinv, hpend, by rw [countEnds_nil]; omega⟩
  | cons m rest ih =>
    intro s j hinv hpend
    obtain ⟨ty, t⟩ := m
    cases ty with
    | Start name =>
      simp only [pendingAfter] at hpend
      obtain ⟨s2, hstep, hinv2, hlen2, hends2⟩ := stepI_start_inv s name t hinv
      rw [← hlen2] at hpend
      obtain ⟨s3, hrun, hinv3, hlen3, hends3⟩ := ih s2 j hinv2 hpend
      refine ⟨s3, ?_, hinv3, hlen3, ?_⟩
      · rw [List.foldlM_cons, hstep]
        exact hrun
      · rw [countEnds_cons_start, hends3, hends2]
    | End =>
      simp only [pendingAfter] at hpend
      cases hk : s.path.length with
      | zero =>
        rw [hk] at hpend
        exact Option.noConfusion hpend
      | succ k =>
        rw [hk] at hpend
        have hp : s.path ≠ [] := by
          intro he
          rw [he] at hk
          exact Nat.noConfusion hk
        obtain ⟨s2, hstep, hinv2, hlen2, hends2⟩ := stepI_end_inv s t hinv hp
        have hlen2k : s2.path.length = k := by omega
        rw [← hlen2k] at hpend
        obtain ⟨s3, hrun, hinv3, hlen3, hends3⟩ := ih s2 j hinv2 hpend
        refine ⟨s3, ?_, hinv3, hlen3, ?_⟩
        · rw [List.foldlM_cons, hstep]
          exact hrun
        · rw [countEnds_cons_end, hends3, hends2]
          omega

theorem stepI_proj (s : IState) (m : Measure) :
    into_tree_step (projI s) m = (stepI s m).map projI := by
  obtain ⟨ty, t⟩ := m
  cases ty with
  | Start name =>
    show into_tree_step (projI s) (Measure.mk (MeasureType.Start name) t) = _
    cases hgc : get_current s.path s.tree with
    | none =>
      cases hidx : get_index_of s.tree name with
      | some idx =>
        rw [stepI_start_eq_root_found s name t idx hgc hidx]
        simp only [into_tree_step, projI, hgc, hidx]
        rfl
      | none =>
        rw [stepI_start_eq_root_new s name t hgc hidx]
        simp only [into_tree_step, projI, hgc, hidx]
        rfl
    | some cur =>
      cases hidx : get_index_of (Node.children cur) name with
      | some idx =>
        rw [stepI_start_eq_child_found s name t cur idx hgc hidx]
        simp only [into_tree_step, projI, hgc, hidx]
        rfl
      | none =>
        rw [stepI_start_eq_child_new s name t cur hgc hidx]
        simp only [into_tree_step, projI, hgc, hidx]
        rfl
  | End =>
    cases hgc : get_current s.path s.tree with
    | none =>
      rw [stepI_end_eq_err s t hgc]
      simp only [into_tree_step, projI, hgc]
      rfl
    | some cur =>
      cases hst : s.starts with
      | nil =>
        simp only [stepI, into_tree_step, projI, hgc, hst]
        rfl
      | cons st0 rest =>
        rw [stepI_end_eq_ok s t cur st0 rest hgc hst]
        simp only [into_tree_step, projI, hgc, hst]
        rfl

theorem foldlM_projI : ∀ (ms : List Measure) (s : IState),
    List.foldlM into_tree_step (projI s) ms = (List.foldlM stepI s ms).map projI := by
  intro ms
  induction ms with
  | nil => intro s; rfl
  | cons m rest ih =>
    intro s
    rw [List.foldlM_cons, List.foldlM_cons, stepI_proj]
    cases stepI s m with
    | error e => rfl
    | ok s2 =>
      show List.foldlM into_tree_step (projI s2) rest = _
      rw [ih s2]
      rfl

theorem measTotal_vroot (tree : List (Str × Node)) :
    measTotal (vroot tree) = measTotalF tree := by
  rw [vroot, measTotal_mk]
  simp

/-- Claim C2: for every balanced Enter/Exit event sequence of one thread
(each End closes the most recent unmatched Start), into_tree succeeds and the
total number of duration entries summed over all nodes of the forest equals
the number of Start events, and no single node holds more duration entries
than the number of times it was entered (the number of Start events whose
entered path is that node's path). -/
theorem C2_balanced_forest_durations (ms : List Measure) (h : balanced ms) :
    ∃ total tree, into_tree ms = Except.ok (total, tree) ∧
      measTotalF tree = countStarts ms ∧
      ∀ q node, get_current q tree = some node →
        (Node.measures node).length ≤ List.count q (entersLog ms) := by
  obtain ⟨s2, hrun, hinv, hlen, hends⟩ :=
    runI_inv ms (IState.mk [] [] [] [] 0) 0 buildInv_init h
  have hproj : List.foldlM into_tree_step (BuildState.mk [] [] []) ms = .ok (projI s2) := by
    have hh := foldlM_projI ms (IState.mk [] [] [] [] 0)
    rw [hrun] at hh
    exact hh
  refine ⟨(s2.tree.map (fun p => (Node.measures p.2).sum)).sum, s2.tree, ?_, ?_, ?_⟩
  · unfold into_tree
    rw [hproj]
    rfl
  · have htot := hinv.total
    rw [measTotal_vroot] at htot
    have hcnt := pendingAfter_counts ms 0 0 h
    simp only at hends
    omega
  · intro q node hq
    have hqne : q ≠ [] := by
      intro he
      rw [he] at hq
      simp at hq
    have hpath0 : s2.path = [] := List.length_eq_zero.mp hlen
    have hcounts := hinv.counts q hqne
    rw [hpath0, openCnt_nil_path] at hcounts
    have hml : mlen (vroot s2.tree) q = (Node.measures node).length := by
      rw [mlen_def, ← get_current_eq_getDesc _ _ hqne, hq]
      rfl
    have hlog : entersLog ms = s2.log := by
      unfold entersLog runI
      rw [hrun]
    rw [hlog, hcounts, hml]
    omega

/-- Witness for claim C2 at a concrete balanced sequence (a scope entering
itself recursively once). -/
theorem C2_balanced_forest_durations_witness :
    balanced msRec ∧
    (∃ total tree, into_tree msRec = Except.ok (total, tree) ∧
      measTotalF tree = countStarts msRec ∧
      ∀ q node, get_current q tree = some node →
        (Node.measures node).length ≤ List.count q (entersLog msRec)) :=
  ⟨by decide, C2_balanced_forest_durations msRec (by decide)⟩

theorem processThreads_fst : ∀ (ts : List (Duration × List Measure)) (i : Nat)
    (total : Duration) (acc : List (Str × Timing)),
    (processThreads ts i total acc).map Prod.fst =
      (ts.mapM (fun p => into_tree p.2)).map
        (fun l => (l.map Prod.fst).foldl max total) := by
  intro ts
  induction ts with
  | nil =>
    intro i total acc
    rfl
  | cons t rest ih =>
    intro i total acc
    obtain ⟨elap, msr⟩ := t
    rw [List.mapM_cons]
    simp only [processThreads]
    cases hit : into_tree msr with
    | error e => rfl
    | ok r =>
      obtain ⟨tt, tree⟩ := r
      have hbind : (Except.ok (tt, tree) >>=
          fun x => rest.mapM (fun p => into_tree p.2) >>=
            fun xs => pure (x :: xs)) =
          (rest.mapM (fun p => into_tree p.2) >>=
            fun xs => pure ((tt, tree) :: xs)) := rfl
      rw [hbind, ih]
      cases hm : rest.mapM (fun p => into_tree p.2) with
      | error e => rfl
      | ok l => rfl

/-- Claim C1 counterexample: a single finalized thread stores elapsed time 5
while its one scope records duration 2; print_timings uses 2 (the into_tree
total) as the total application time, not the stored elapsed maximum 5. -/
theorem C1_counterexample :
    (print_timings_full threadsC1).map Prod.fst = .ok 2 ∧
    spec_total_app_time threadsC1 = 5 ∧ (2 : Duration) ≠ 5 := by
  refine ⟨rfl, rfl, by decide⟩

/-- Claim C1 amended: the total application time used by print_timings is the
maximum, starting from zero, over all threads of the per-thread total computed
by into_tree (the sum of the thread root nodes own durations); the elapsed
Duration stored as the first component of each finalized entry is ignored. -/
theorem C1_amended_total_app (threads : List (Duration × List Measure)) :
    (print_timings_full threads).map Prod.fst =
      (threads.mapM (fun p => into_tree p.2)).map
        (fun l => (l.map Prod.fst).foldl max 0) := by
  unfold print_timings_full
  have h := processThreads_fst threads 0 0 []
  cases hp : processThreads threads 0 0 [] with
  | error e =>
    rw [hp] at h
    rw [← h]
    rfl
  | ok r =>
    obtain ⟨total_app, acc⟩ := r
    rw [hp] at h
    rw [← h]
    rfl

/-- Claim C3 counterexample: one thread enters scope a recursively (msRec);
the two per-node records merge into one table row with average 3,
cpu_time_total 4 and calls 2, and 3 is not 4 / 2. -/
theorem C3_counterexample :
    (print_timings [(0, msRec)]).map
        (List.map (fun t => (t.average, t.total_cpu, t.calls))) =
      .ok [(3, 4, 2)] ∧ (3 : Duration) ≠ 4 / 2 := by
  refine ⟨rfl, by decide⟩

/-- Claim C3 amended: the reported average equals cpu_time_total divided by
calls for every record as first produced from one node's durations
(Timing.from_durations with at least one duration); records produced by
merging several nodes or threads instead carry the running mean of the two
averages, which in general differs from cpu_time_total / calls. -/
theorem C3_amended_average (name fname : Str) (ds : List Duration)
    (total : Duration) (th : Nat) (h : ds ≠ []) :
    (Timing.from_durations name fname ds total th).average =
      (Timing.from_durations name fname ds total th).total_cpu /
        (Timing.from_durations name fname ds total th).calls := by
  have hlen : ds.length ≠ 0 := by
    intro hc
    exact h (List.length_eq_zero.mp hc)
  simp only [Timing.from_durations]
  have hmax : max ds.length 1 = ds.length := Nat.max_eq_left (by omega)
  rw [hmax]

/-- Witness for claim C3 amended at one duration list. -/
theorem C3_amended_average_witness :
    ([4] : List Duration) ≠ [] ∧
    (Timing.from_durations "a" "a" [4] 0 0).average =
      (Timing.from_durations "a" "a" [4] 0 0).total_cpu /
        (Timing.from_durations "a" "a" [4] 0 0).calls :=
  ⟨by decide, C3_amended_average "a" "a" [4] 0 0 (by decide)⟩

/-- Claim C4: with a single zero-duration scope the total application time is
zero, and the final report shows percent_app = nan for the lone record, not
100: update_percent recomputes 0.0/0.0 over the guard value 100 that
from_durations had set.  The second conjunct shows the overwritten guard. -/
theorem C4_zero_total_nan :
    (print_timings threadsZero).map (List.map Timing.percent_app) = .ok [FVal.nan] ∧
    (Timing.from_durations "a" "a" [0] 0 0).percent_app = FVal.val 100 :=
  ⟨rfl, rfl⟩

theorem loopEvents_zero (name : Str) : loopEvents name 0 = [] := rfl

theorem loopEvents_succ (name : Str) (k : Nat) :
    loopEvents name (k + 1) =
      Measure.mk (MeasureType.Start name) 0 :: Measure.mk MeasureType.End 0 ::
        loopEvents name k := by
  unfold loopEvents
  rw [List.replicate_succ]
  rfl

theorem loop_step_start (name : Str) (ds : List Duration) :
    into_tree_step (BuildState.mk [(name, Node.mk ds [] 0)] [] [])
      (Measure.mk (MeasureType.Start name) 0) =
      .ok (BuildState.mk [(name, Node.mk ds [] 0)] [0] [0]) := by
  simp [into_tree_step, get_current, get_index_of]

theorem loop_step_end (name : Str) (ds : List Duration) :
    into_tree_step (BuildState.mk [(name, Node.mk ds [] 0)] [0] [0])
      (Measure.mk MeasureType.End 0) =
      .ok (BuildState.mk [(name, Node.mk (ds ++ [0]) [] 0)] [] []) := by
  simp [into_tree_step, get_current, getDesc, modify_current, modifyDesc, pushMeas]

theorem loop_fold (name : Str) : ∀ (k : Nat) (ds : List Duration),
    List.foldlM into_tree_step (BuildState.mk [(name, Node.mk ds [] 0)] [] [])
        (loopEvents name k) =
      .ok (BuildState.mk [(name, Node.mk (ds ++ List.replicate k 0) [] 0)] [] []) := by
  intro k
  induction k with
  | zero =>
    intro ds
    rw [loopEvents_zero]
    simp only [List.replicate_zero, List.append_nil, List.foldlM_nil]
    rfl
  | succ k ih =>
    intro ds
    rw [loopEvents_succ, List.foldlM_cons, loop_step_start]
    show List.foldlM into_tree_step (BuildState.mk [(name, Node.mk ds [] 0)] [0] [0])
      (Measure.mk MeasureType.End 0 :: loopEvents name k) = _
    rw [List.foldlM_cons, loop_step_end]
    show List.foldlM into_tree_step (BuildState.mk [(name, Node.mk (ds ++ [0]) [] 0)] [] [])
      (loopEvents name k) = _
    rw [ih (ds ++ [0])]
    have : ds ++ [0] ++ List.replicate k 0 = ds ++ List.replicate (k + 1) 0 := by
      rw [List.append_assoc, List.replicate_succ]
      rfl
    rw [this]

theorem except_ok_bind {ε α β : Type} (a : α) (f : α → Except ε β) :
    (Except.ok a >>= f) = f a := rfl

theorem except_error_bind {ε α β : Type} (e : ε) (f : α → Except ε β) :
    ((Except.error e : Except ε α) >>= f) = Except.error e := rfl

/-- Claim C5 counterexample: a scope entering itself recursively (msRec, one
name entered twice) does not accumulate into one node: into_tree builds two
nodes, the root a holding a nested child also named a (an ever-deeper path,
one node per recursion depth). -/
theorem C5_counterexample :
    (into_tree msRec).map (fun r => nodeCountF r.2) = .ok 2 ∧
    (into_tree msRec).map
        (fun r => r.2.map (fun p => (p.1, (Node.children p.2).map Prod.fst))) =
      .ok [("a", ["a"])] ∧
    (2 : Nat) ≠ 1 := by
  refine ⟨rfl, rfl, by decide⟩

/-- Claim C5 amended: into_tree gives every call to the same scope name under
the same parent the same node, so k loop iterations of one scope collapse
into a single root node holding k durations; a scope re-entering itself
recursively instead nests one node per depth (each level parent of the next),
and those levels are only collapsed into one report row when print_timings
merges records by unqualified name (the default, shown on msRec). -/
theorem C5_amended_collapse :
    (∀ (name : Str) (k : Nat), into_tree (loopEvents name k) =
        .ok (0, if k = 0 then [] else [(name, Node.mk (List.replicate k 0) [] 0)])) ∧
    (print_timings [(0, msRec)]).map (List.map (fun t => (t.name, t.calls))) =
      .ok [("a", 2)] := by
  constructor
  · intro name k
    cases k with
    | zero => rfl
    | succ k =>
      unfold into_tree
      rw [loopEvents_succ, List.foldlM_cons]
      have h1 : into_tree_step (BuildState.mk [] [] [])
          (Measure.mk (MeasureType.Start name) 0) =
          .ok (BuildState.mk [(name, Node.new 0)] [0] [0]) := by
        simp [into_tree_step, get_current, get_index_of]
      rw [h1, except_ok_bind, List.foldlM_cons]
      have h2 : into_tree_step (BuildState.mk [(name, Node.new 0)] [0] [0])
          (Measure.mk MeasureType.End 0) =
          .ok (BuildState.mk [(name, Node.mk [0] [] 0)] [] []) :=
        loop_step_end name []
      rw [h2, except_ok_bind, loop_fold name k [0]]
      have hrep : ([0] : List Duration) ++ List.replicate k 0 = List.replicate (k + 1) 0 := by
        rw [List.replicate_succ]
        rfl
      rw [hrep]
      simp [List.sum_replicate]
  · rfl

/-- Claim C6: an End (Exit) event reached when the current path and
start-time stacks are both empty is a fatal protocol violation: into_tree
stops with the panic message of the first expect, whatever events follow, and
returns no forest. -/
theorem C6_exit_empty_panics (pre post : List Measure) (t : Instant) (st : BuildState)
    (h : List.foldlM into_tree_step (BuildState.mk [] [] []) pre = .ok st)
    (hpath : st.current_path = []) (_hstarts : st.start_times = []) :
    into_tree (pre ++ Measure.mk MeasureType.End t :: post) =
      .error "profi: pop called and current is None, this should never happen!" := by
  unfold into_tree
  rw [List.foldlM_append, h, except_ok_bind, List.foldlM_cons]
  have hstep : into_tree_step st (Measure.mk MeasureType.End t) =
      .error "profi: pop called and current is None, this should never happen!" := by
    simp [into_tree_step, hpath]
  rw [hstep, except_error_bind]

/-- Witness for claim C6: a lone End event panics immediately. -/
theorem C6_exit_empty_panics_witness :
    into_tree [Measure.mk MeasureType.End 0] =
      .error "profi: pop called and current is None, this should never happen!" :=
  C6_exit_empty_panics [] [] 0 (BuildState.mk [] [] []) rfl rfl rfl

/-- Claim C7: finalizing a thread log does not always succeed: a worker
thread (main_thread = false) with a nonempty log and no previously captured
stop time panics at self.thread_time.unwrap(), even though the local
thread_time computed by get_thread_time carries the now - thread_start
fallback; the main-thread path uses that fallback and records elapsed
now - thread_start = 5 here. -/
theorem C7_worker_unwrap_panics :
    (ThreadProfiler.mk [Measure.mk (MeasureType.Start "a") 0] 0 none).manual_drop
        GlobalProfiler.new false 5 =
      .error "called Option unwrap on a None value" ∧
    ((ThreadProfiler.mk [Measure.mk (MeasureType.Start "a") 0] 0 none).manual_drop
        GlobalProfiler.new true 5).map (fun r => r.2.measures.map Prod.fst) =
      .ok [5] ∧
    (ThreadProfiler.mk [Measure.mk (MeasureType.Start "a") 0] 0 none).get_thread_time 5 = 5 :=
  ⟨rfl, rfl, rfl⟩

/-- Claim C8 counterexample: the active thread counter of a fresh
GlobalProfiler is 0, not 1; no thread is represented before registration. -/
theorem C8_counterexample :
    GlobalProfiler.new.threads = 0 ∧ GlobalProfiler.new.threads ≠ 1 := by
  refine ⟨rfl, by decide⟩

/-- Claim C8 amended: the counter starts at 0 and each ThreadProfiler
creation (including the lazily created profiler of the implicit reporting
thread) increments it by one, so it reads 1 exactly once the reporting
thread has registered and before any worker does. -/
theorem C8_amended_counter :
    GlobalProfiler.new.threads = 0 ∧
    (∀ (g : GlobalProfiler) (now : Instant),
      ((ThreadProfiler.new g now).2).threads = g.threads + 1) ∧
    (∀ now : Instant, ((ThreadProfiler.new GlobalProfiler.new now).2).threads = 1) :=
  ⟨rfl, fun _ _ => rfl, fun _ => rfl⟩

/-- Claim C9: Timing::merge between records of the same thread leaves
real_time_total and cpu_time_total at the first record's values while still
summing calls; only records from different threads get cpu times added and
real times maxed (calls sum in both cases). -/
theorem C9_merge_frame (t1 t2 : Timing) :
    (t1.thread = t2.thread →
      (t1.merge t2).total_real = t1.total_real ∧
      (t1.merge t2).total_cpu = t1.total_cpu ∧
      (t1.merge t2).calls = t1.calls + t2.calls) ∧
    (t1.thread ≠ t2.thread →
      (t1.merge t2).total_real = max t1.total_real t2.total_real ∧
      (t1.merge t2).total_cpu = t1.total_cpu + t2.total_cpu ∧
      (t1.merge t2).calls = t1.calls + t2.calls) := by
  unfold Timing.merge
  by_cases hf : t1.formatted_name.length > t2.formatted_name.length <;>
    by_cases ht : t1.thread = t2.thread <;>
      simp [hf, ht]

/-- Witness for claim C9 at concrete same-thread and different-thread
records. -/
theorem C9_merge_frame_witness :
    (((Timing.mk "a" "a" (FVal.val 0) 2 (FVal.val 0) 2 2 1 0).merge
        (Timing.mk "a" "a" (FVal.val 0) 3 (FVal.val 0) 3 3 1 0)).total_real = 2 ∧
      ((Timing.mk "a" "a" (FVal.val 0) 2 (FVal.val 0) 2 2 1 0).merge
        (Timing.mk "a" "a" (FVal.val 0) 3 (FVal.val 0) 3 3 1 0)).total_cpu = 2 ∧
      ((Timing.mk "a" "a" (FVal.val 0) 2 (FVal.val 0) 2 2 1 0).merge
        (Timing.mk "a" "a" (FVal.val 0) 3 (FVal.val 0) 3 3 1 0)).calls = 1 + 1) ∧
    (((Timing.mk "a" "a" (FVal.val 0) 2 (FVal.val 0) 2 2 1 0).merge
        (Timing.mk "a" "a" (FVal.val 0) 3 (FVal.val 0) 3 3 1 1)).total_real = max 2 3 ∧
      ((Timing.mk "a" "a" (FVal.val 0) 2 (FVal.val 0) 2 2 1 0).merge
        (Timing.mk "a" "a" (FVal.val 0) 3 (FVal.val 0) 3 3 1 1)).total_cpu = 2 + 3 ∧
      ((Timing.mk "a" "a" (FVal.val 0) 2 (FVal.val 0) 2 2 1 0).merge
        (Timing.mk "a" "a" (FVal.val 0) 3 (FVal.val 0) 3 3 1 1)).calls = 1 + 1) :=
  ⟨(C9_merge_frame (Timing.mk "a" "a" (FVal.val 0) 2 (FVal.val 0) 2 2 1 0)
      (Timing.mk "a" "a" (FVal.val 0) 3 (FVal.val 0) 3 3 1 0)).1 rfl,
   (C9_merge_frame (Timing.mk "a" "a" (FVal.val 0) 2 (FVal.val 0) 2 2 1 0)
      (Timing.mk "a" "a" (FVal.val 0) 3 (FVal.val 0) 3 3 1 1)).2 (by decide)⟩

/-- Claim C10: Guard::new followed by into_inner is an identity round-trip on
the wrapped value, and it appends exactly one matching Enter/Exit pair (a
Start with the guard name at creation time, then an End at release time) to
the calling thread's log. -/
theorem C10_guard_roundtrip (α : Type) (v : α) (name : Str) (now1 now2 : Instant)
    (tp : ThreadProfiler) :
    ((Guard.new v name now1 tp).1.into_inner now2 (Guard.new v name now1 tp).2).1 = v ∧
    ((Guard.new v name now1 tp).1.into_inner now2 (Guard.new v name now1 tp).2).2.measures =
      tp.measures ++
        [Measure.mk (MeasureType.Start name) now1, Measure.mk MeasureType.End now2] := by
  constructor
  · rfl
  · show (tp.push name now1).measures ++ [Measure.mk MeasureType.End now2] = _
    unfold ThreadProfiler.push
    simp only [List.length_append, List.length_singleton, Nat.add_sub_cancel]
    rw [listModify_append_length]
    simp
